import Mathlib

/-!
Verification development for the quant-alpha-model repository.

The file shallowly embeds the repository's core logic in Lean:

* `resample_stock_bars` (src/data/resample_data.py): the OHLCV bar
  resampler built on Polars.  Prices are modelled as exact rationals,
  timestamps as integers, and the Polars frequency truncation
  `dt.truncate(freq)` as an arbitrary function `trunc : ℤ → ℤ` (the
  claims under study are independent of the concrete bucket function).
  The local wall-clock attributes `dt.hour()` and `dt.weekday()` of the
  timezone-converted timestamp are carried as fields of a bar; Polars'
  `dt.weekday()` is ISO-numbered (Monday = 1, ..., Sunday = 7).
* `prepare_data_feeds` (src/backtesting/engine.py): the fail-fast data
  feed validation.
* the per-rebalance-event logic of `SampleStrategy_Backtesting.next`
  (src/strategies/sample.py): eligibility filtering, the z-score /
  inverse-volatility weight computation with numpy float semantics
  (NaN modelled as `Option.none` over real numbers), and the no-trade
  band rebalancing step.
-/

namespace QuantAlpha

/-! ### Bar resampler (src/data/resample_data.py) -/

/-- One input bar row.  `hour` and `wday` are the local hour of day and
the ISO weekday (Monday = 1, ..., Sunday = 7) of the timezone-converted
timestamp, exactly what Polars' `dt.hour()` / `dt.weekday()` return. -/
structure Bar where
  sym : ℕ
  ts : ℤ
  hour : ℕ
  wday : ℕ
  op : ℚ
  hi : ℚ
  lo : ℚ
  cl : ℚ
  vw : ℚ
  vol : ℤ
  tc : ℤ
deriving DecidableEq, Repr

/-- One output row of the resampler (timestamp already truncated to the
bucket start). -/
structure Row where
  sym : ℕ
  ts : ℤ
  op : ℚ
  hi : ℚ
  lo : ℚ
  cl : ℚ
  vw : ℚ
  vol : ℤ
  tc : ℤ
deriving DecidableEq, Repr

/-- The market-hours predicate of `resample_stock_bars`:
`(hour >= 9) & (hour < 16) & (weekday < 5)` — written exactly as in the
source, over the Polars ISO weekday numbering. -/
def marketHours (b : Bar) : Bool :=
  (9 ≤ b.hour) && (b.hour < 16) && (b.wday < 5)

/-- Sort key of the input frame: `df.sort([symbol_col, timestamp_col])`. -/
def barLE (a b : Bar) : Prop :=
  a.sym < b.sym ∨ (a.sym = b.sym ∧ a.ts ≤ b.ts)

/-- Sort key of the output frame: `.sort([symbol_col, timestamp_col])`. -/
def rowLE (a b : Row) : Prop :=
  a.sym < b.sym ∨ (a.sym = b.sym ∧ a.ts ≤ b.ts)

/-- Chronological (timestamp) order on bars. -/
def tsLE (a b : Bar) : Prop := a.ts ≤ b.ts

instance : DecidableRel barLE := fun a b => by unfold barLE; infer_instance

instance : DecidableRel rowLE := fun a b => by unfold rowLE; infer_instance

instance : IsTotal Bar barLE := by
  constructor; intro a b; unfold barLE; omega

instance : IsTrans Bar barLE := by
  constructor; intro a b c; unfold barLE; omega

instance : IsTotal Row rowLE := by
  constructor; intro a b; unfold rowLE; omega

instance : IsTrans Row rowLE := by
  constructor; intro a b c; unfold rowLE; omega

/-- Polars `first()` over a group: the first element in within-group
frame order (chronological, since the frame was pre-sorted). -/
def firstOpen (g : List Bar) : ℚ :=
  match g with
  | [] => 0
  | b :: _ => b.op

/-- Polars `last()` over a group. -/
def lastClose (g : List Bar) : ℚ :=
  match g with
  | [] => 0
  | _ => (g.getLast?.map Bar.cl).getD 0

/-- Maximum of a list of rationals (Polars `max()` over a nonempty group). -/
def maxQ : List ℚ → ℚ
  | [] => 0
  | x :: xs => xs.foldl max x

/-- Minimum of a list of rationals (Polars `min()` over a nonempty group). -/
def minQ : List ℚ → ℚ
  | [] => 0
  | x :: xs => xs.foldl min x

/-- The per-(symbol, bucket) aggregation of `resample_stock_bars`:
open = first, high = max, low = min, close = last, volume = sum,
trade_count = sum, vwap = mean. -/
def aggRow (k : ℕ × ℤ) (g : List Bar) : Row :=
  { sym := k.1
    ts := k.2
    op := firstOpen g
    hi := maxQ (g.map Bar.hi)
    lo := minQ (g.map Bar.lo)
    cl := lastClose g
    vw := (g.map Bar.vw).sum / (g.length : ℚ)
    vol := (g.map Bar.vol).sum
    tc := (g.map Bar.tc).sum }

/-- The market-hours filter stage of `resample_stock_bars` (applied
before any bucketing when `market_hours_only` is set). -/
def filteredBars (mho : Bool) (bars : List Bar) : List Bar :=
  if mho then bars.filter (fun b => marketHours b) else bars

/-- Bucket key of a bar: (symbol, truncated timestamp). -/
def barKey (trunc : ℤ → ℤ) (b : Bar) : ℕ × ℤ :=
  (b.sym, trunc b.ts)

/-- `resample_stock_bars` (src/data/resample_data.py): timezone
conversion is reflected in the `hour`/`wday` fields, then the optional
market-hours filter, then `sort([symbol, timestamp])`, then grouping by
(symbol, truncated timestamp) — Polars aggregations keep within-group
frame order, so each group is chronologically sorted — then the
per-group OHLCV aggregation, and a final `sort([symbol, timestamp])`.
Groups are exactly the keys occurring among the filtered bars: empty
buckets are never synthesized. -/
def resample_stock_bars (trunc : ℤ → ℤ) (mho : Bool) (bars : List Bar) : List Row :=
  let sorted := List.insertionSort barLE (filteredBars mho bars)
  let keys := (sorted.map (barKey trunc)).dedup
  List.insertionSort rowLE
    (keys.map (fun k => aggRow k (sorted.filter (fun b => decide (barKey trunc b = k)))))

lemma foldl_max_init_le (xs : List ℚ) (a : ℚ) : a ≤ xs.foldl max a := by
  induction xs generalizing a with
  | nil => simp
  | cons x xs ih => exact le_trans (le_max_left a x) (ih (max a x))

lemma le_foldl_max (xs : List ℚ) (a : ℚ) : ∀ y ∈ xs, y ≤ xs.foldl max a := by
  induction xs generalizing a with
  | nil => simp
  | cons x xs ih =>
    intro y hy
    rcases List.mem_cons.mp hy with h | h
    · subst h
      exact le_trans (le_max_right a y) (foldl_max_init_le xs (max a y))
    · exact ih (max a x) y h

lemma foldl_max_mem (xs : List ℚ) (a : ℚ) : xs.foldl max a = a ∨ xs.foldl max a ∈ xs := by
  induction xs generalizing a with
  | nil => simp
  | cons x xs ih =>
    rcases ih (max a x) with h | h
    · rcases max_choice a x with he | he
      · left
        rw [List.foldl_cons, h, he]
      · right
        rw [List.foldl_cons, h, he]
        exact List.mem_cons_self x xs
    · right
      exact List.mem_cons_of_mem x h

lemma maxQ_mem : ∀ {l : List ℚ}, l ≠ [] → maxQ l ∈ l
  | [], h => absurd rfl h
  | x :: xs, _ => by
    show xs.foldl max x ∈ x :: xs
    rcases foldl_max_mem xs x with h1 | h1
    · rw [h1]
      exact List.mem_cons_self x xs
    · exact List.mem_cons_of_mem x h1

lemma le_maxQ : ∀ {l : List ℚ}, ∀ y ∈ l, y ≤ maxQ l
  | [], y, hy => absurd hy (List.not_mem_nil y)
  | x :: xs, y, hy => by
    show y ≤ xs.foldl max x
    rcases List.mem_cons.mp hy with h | h
    · subst h
      exact foldl_max_init_le xs y
    · exact le_foldl_max xs x y h

lemma le_foldl_min (xs : List ℚ) (a : ℚ) : xs.foldl min a ≤ a := by
  induction xs generalizing a with
  | nil => simp
  | cons x xs ih => exact le_trans (ih (min a x)) (min_le_left a x)

lemma foldl_min_le (xs : List ℚ) (a : ℚ) : ∀ y ∈ xs, xs.foldl min a ≤ y := by
  induction xs generalizing a with
  | nil => simp
  | cons x xs ih =>
    intro y hy
    rcases List.mem_cons.mp hy with h | h
    · subst h
      exact le_trans (le_foldl_min xs (min a y)) (min_le_right a y)
    · exact ih (min a x) y h

lemma foldl_min_mem (xs : List ℚ) (a : ℚ) : xs.foldl min a = a ∨ xs.foldl min a ∈ xs := by
  induction xs generalizing a with
  | nil => simp
  | cons x xs ih =>
    rcases ih (min a x) with h | h
    · rcases min_choice a x with he | he
      · left
        rw [List.foldl_cons, h, he]
      · right
        rw [List.foldl_cons, h, he]
        exact List.mem_cons_self x xs
    · right
      exact List.mem_cons_of_mem x h

lemma minQ_mem : ∀ {l : List ℚ}, l ≠ [] → minQ l ∈ l
  | [], h => absurd rfl h
  | x :: xs, _ => by
    show xs.foldl min x ∈ x :: xs
    rcases foldl_min_mem xs x with h1 | h1
    · rw [h1]
      exact List.mem_cons_self x xs
    · exact List.mem_cons_of_mem x h1

lemma minQ_le : ∀ {l : List ℚ}, ∀ y ∈ l, minQ l ≤ y
  | [], y, hy => absurd hy (List.not_mem_nil y)
  | x :: xs, y, hy => by
    show xs.foldl min x ≤ y
    rcases List.mem_cons.mp hy with h | h
    · subst h
      exact le_foldl_min xs y
    · exact foldl_min_le xs x y h

/-- A bar falling on a Friday (ISO weekday 5) at 10:00 local time. -/
def fridayBar : Bar :=
  { sym := 0, ts := 0, hour := 10, wday := 5
    op := 1, hi := 1, lo := 1, cl := 1, vw := 1, vol := 1, tc := 1 }

/-- Claim C1 (code_bug): a bar whose local time-of-day is inside
[09:00, 16:00) and whose local weekday is Friday — a weekday Monday
through Friday — is nevertheless dropped by the market-hours filter of
`resample_stock_bars`: resampling a frame holding only this bar yields
an empty frame.  Polars' `dt.weekday()` is ISO-numbered (Monday = 1,
..., Friday = 5, Sunday = 7) while the filter keeps `weekday < 5`,
whose own comment claims the Monday = 0, ..., Friday = 4 convention, so
Friday bars are discarded, contradicting the spec and the comment. -/
theorem c1_friday_bar_dropped :
    (9 ≤ fridayBar.hour ∧ fridayBar.hour < 16 ∧ 1 ≤ fridayBar.wday ∧ fridayBar.wday ≤ 5) ∧
    resample_stock_bars id true [fridayBar] = [] := by
  exact ⟨by decide, rfl⟩

/-- Claim C8: output of `resample_stock_bars` is sorted by
(symbol, timestamp); its (symbol, bucket) keys are distinct and are
exactly the keys of the (market-hours filtered) input bars, so a bucket
with at least one input bar yields exactly one row and empty buckets
are never synthesized; and every output row aggregates its group —
chronologically sorted — with open = first, close = last, high = max,
low = min, volume / trade_count = sums and vwap = arithmetic mean. -/
theorem c8_resample_aggregation (trunc : ℤ → ℤ) (mho : Bool) (bars : List Bar) :
    List.Sorted rowLE (resample_stock_bars trunc mho bars) ∧
    ((resample_stock_bars trunc mho bars).map (fun r => (r.sym, r.ts))).Nodup ∧
    (∀ k : ℕ × ℤ,
      (∃ r ∈ resample_stock_bars trunc mho bars, (r.sym, r.ts) = k) ↔
      (∃ b ∈ filteredBars mho bars, barKey trunc b = k)) ∧
    (∀ r ∈ resample_stock_bars trunc mho bars, ∃ g : List Bar,
      g.Perm ((filteredBars mho bars).filter (fun b => decide (barKey trunc b = (r.sym, r.ts)))) ∧
      List.Sorted tsLE g ∧ g ≠ [] ∧
      r.op = firstOpen g ∧ r.cl = lastClose g ∧
      r.hi ∈ g.map Bar.hi ∧ (∀ y ∈ g.map Bar.hi, y ≤ r.hi) ∧
      r.lo ∈ g.map Bar.lo ∧ (∀ y ∈ g.map Bar.lo, r.lo ≤ y) ∧
      r.vol = (g.map Bar.vol).sum ∧ r.tc = (g.map Bar.tc).sum ∧
      r.vw = (g.map Bar.vw).sum / (g.length : ℚ)) := by
  set fb := filteredBars mho bars with hfb
  set srt := List.insertionSort barLE fb with hsrt
  set keys := (srt.map (barKey trunc)).dedup with hkeys
  set rows := keys.map
    (fun k => aggRow k (srt.filter (fun b => decide (barKey trunc b = k)))) with hrows
  have hres : resample_stock_bars trunc mho bars = List.insertionSort rowLE rows := rfl
  have hperm_out : List.Perm (List.insertionSort rowLE rows) rows := List.perm_insertionSort rowLE rows
  have hperm_srt : List.Perm srt fb := List.perm_insertionSort barLE fb
  have hsorted_srt : List.Sorted barLE srt := List.sorted_insertionSort barLE fb
  have hrow_key : ∀ k ∈ keys,
      ((aggRow k (srt.filter (fun b => decide (barKey trunc b = k)))).sym,
       (aggRow k (srt.filter (fun b => decide (barKey trunc b = k)))).ts) = k := by
    intro k _
    rfl
  have hrows_keys : rows.map (fun r => (r.sym, r.ts)) = keys := by
    rw [hrows, List.map_map]
    have : ∀ k ∈ keys,
        ((fun r => (r.sym, r.ts)) ∘
          fun k => aggRow k (srt.filter (fun b => decide (barKey trunc b = k)))) k =
        (fun k => k) k := by
      intro k hk
      exact hrow_key k hk
    rw [List.map_congr_left this, List.map_id']
  refine ⟨List.sorted_insertionSort rowLE rows, ?_, ?_, ?_⟩
  · rw [hres]
    have hmp : List.Perm ((List.insertionSort rowLE rows).map (fun r => (r.sym, r.ts)))
        (rows.map (fun r => (r.sym, r.ts))) := hperm_out.map _
    rw [hrows_keys] at hmp
    exact hmp.nodup_iff.mpr (List.nodup_dedup _)
  · intro k
    rw [hres]
    constructor
    · rintro ⟨r, hr, hk⟩
      have hr' : r ∈ rows := hperm_out.mem_iff.mp hr
      have : k ∈ rows.map (fun r => (r.sym, r.ts)) := by
        exact hk ▸ List.mem_map_of_mem _ hr'
      rw [hrows_keys, hkeys] at this
      rcases List.mem_map.mp (List.mem_dedup.mp this) with ⟨b, hb, hbk⟩
      exact ⟨b, hperm_srt.mem_iff.mp hb, hbk⟩
    · rintro ⟨b, hb, hbk⟩
      have hbsrt : b ∈ srt := hperm_srt.mem_iff.mpr hb
      have hkmem : k ∈ keys := by
        rw [hkeys]
        exact List.mem_dedup.mpr (hbk ▸ List.mem_map_of_mem _ hbsrt)
      refine ⟨aggRow k (srt.filter (fun b => decide (barKey trunc b = k))), ?_, ?_⟩
      · exact hperm_out.mem_iff.mpr (List.mem_map_of_mem _ hkmem)
      · exact hrow_key k hkmem
  · intro r hr
    rw [hres] at hr
    have hr' : r ∈ rows := hperm_out.mem_iff.mp hr
    rcases List.mem_map.mp hr' with ⟨k, hk, hagg⟩
    set g := srt.filter (fun b => decide (barKey trunc b = k)) with hg
    have hkey_r : (r.sym, r.ts) = k := by
      rw [← hagg]
      rfl
    have hmem_g : ∀ b ∈ g, barKey trunc b = k := by
      intro b hb
      have := (List.mem_filter.mp hb).2
      exact of_decide_eq_true this
    have hne : g ≠ [] := by
      have hkm : k ∈ srt.map (barKey trunc) := List.mem_dedup.mp (hkeys ▸ hk)
      rcases List.mem_map.mp hkm with ⟨b, hb, hbk⟩
      have : b ∈ g := List.mem_filter.mpr ⟨hb, decide_eq_true hbk⟩
      exact List.ne_nil_of_mem this
    refine ⟨g, ?_, ?_, hne, ?_, ?_, ?_, ?_, ?_, ?_, ?_, ?_, ?_⟩
    · rw [hkey_r]
      exact hperm_srt.filter _
    · have hpw : List.Pairwise barLE g :=
        List.Pairwise.sublist (List.filter_sublist srt) hsorted_srt
      refine hpw.imp_of_mem ?_
      intro a b ha hb hab
      have h1 : a.sym = k.1 := by
        have := hmem_g a ha
        simpa [barKey] using congrArg Prod.fst this
      have h2 : b.sym = k.1 := by
        have := hmem_g b hb
        simpa [barKey] using congrArg Prod.fst this
      rcases hab with h | h
      · omega
      · exact h.2
    · rw [← hagg]
      rfl
    · rw [← hagg]
      rfl
    · rw [← hagg]
      refine maxQ_mem ?_
      simpa using hne
    · intro y hy
      rw [← hagg]
      exact le_maxQ y hy
    · rw [← hagg]
      refine minQ_mem ?_
      simpa using hne
    · intro y hy
      rw [← hagg]
      exact minQ_le y hy
    · rw [← hagg]
      rfl
    · rw [← hagg]
      rfl
    · rw [← hagg]
      rfl

/-- Witness for C8: the aggregation theorem instantiated at a concrete
one-bar frame (identity truncation, no market-hours filter). -/
theorem c8_resample_aggregation_witness :
    List.Sorted rowLE (resample_stock_bars id false [Bar.mk 0 0 10 1 1 1 1 1 1 1 1]) :=
  (c8_resample_aggregation id false [Bar.mk 0 0 10 1 1 1 1 1 1 1 1]).1

/-! ### Data feed preparation (src/backtesting/engine.py) -/

/-- The aspects of a pandas DataFrame that `prepare_data_feeds`
inspects: whether its index is a `DatetimeIndex` and its column
names. -/
structure PDFrame where
  isDatetimeIndex : Bool
  cols : List String
deriving DecidableEq, Repr

/-- The `ValueError`s raised by `prepare_data_feeds`. -/
inductive FeedErr where
  | badIndex (sym : String)
  | missingCol (sym : String) (col : String)
deriving DecidableEq, Repr

/-- The columns `prepare_data_feeds` requires (`required_base`). -/
def requiredBase : List String :=
  ["open", "high", "low", "close", "volume", "trade_count", "vwap"]

/-- `prepare_data_feeds` (src/backtesting/engine.py): iterate over the
symbol → DataFrame dictionary; raise on the first DataFrame whose index
is not a `DatetimeIndex` or which lacks a required column (checked in
`required_base` order); otherwise build one data feed per symbol, in
order.  A feed is modelled as the (symbol, frame) pair handed to the
external `PandasDataCustomized` constructor. -/
def prepare_data_feeds : List (String × PDFrame) → Except FeedErr (List (String × PDFrame))
  | [] => Except.ok []
  | (s, df) :: rest =>
    if !df.isDatetimeIndex then
      Except.error (FeedErr.badIndex s)
    else
      match requiredBase.find? (fun c => !(df.cols.contains c)) with
      | some c => Except.error (FeedErr.missingCol s c)
      | none => (prepare_data_feeds rest).map (fun fs => (s, df) :: fs)

/-- Claim C9: `prepare_data_feeds` fails hard at load time — it
succeeds, returning one feed per input symbol (in order, exactly the
input pairs), precisely when every input DataFrame has a
`DatetimeIndex` and contains all required columns (open, high, low,
close, volume, trade_count, vwap); any violation makes it raise
instead of returning feeds. -/
theorem c9_prepare_data_feeds_fail_fast (l : List (String × PDFrame)) :
    (prepare_data_feeds l = Except.ok l ↔
      ∀ q ∈ l, q.2.isDatetimeIndex = true ∧ ∀ c ∈ requiredBase, q.2.cols.contains c = true) ∧
    (∀ fs, prepare_data_feeds l = Except.ok fs → fs = l) := by
  induction l with
  | nil =>
    refine ⟨by simp [prepare_data_feeds], ?_⟩
    intro fs hfs
    simpa [prepare_data_feeds] using hfs.symm
  | cons q rest ih =>
    obtain ⟨s, df⟩ := q
    by_cases hidx : df.isDatetimeIndex
    · rcases hfind : requiredBase.find? (fun c => !(df.cols.contains c)) with _ | c
      · have hall : ∀ c ∈ requiredBase, df.cols.contains c = true := by
          intro c hc
          have := List.find?_eq_none.mp hfind c hc
          simpa using this
        have hstep : prepare_data_feeds ((s, df) :: rest) =
            (prepare_data_feeds rest).map (fun fs => (s, df) :: fs) := by
          simp only [prepare_data_feeds]
          rw [hfind, hidx]
          rfl
        constructor
        · rw [hstep]
          constructor
          · intro h
            rcases hrest : prepare_data_feeds rest with e | fs
            · rw [hrest] at h
              simp [Except.map] at h
            · rw [hrest] at h
              simp [Except.map] at h
              have hfs : fs = rest := ih.2 fs hrest
              intro q hq
              rcases List.mem_cons.mp hq with hq1 | hq2
              · subst hq1
                exact ⟨hidx, hall⟩
              · have hrest_ok : prepare_data_feeds rest = Except.ok rest := by
                  rw [hrest, hfs]
                exact (ih.1.mp hrest_ok) q hq2
          · intro h
            have hrest_ok : prepare_data_feeds rest = Except.ok rest :=
              ih.1.mpr (fun q hq => h q (List.mem_cons_of_mem _ hq))
            rw [hrest_ok]
            rfl
        · intro fs hfs
          rw [hstep] at hfs
          rcases hrest : prepare_data_feeds rest with e | fs'
          · rw [hrest] at hfs
            simp [Except.map] at hfs
          · rw [hrest] at hfs
            simp [Except.map] at hfs
            rw [← hfs, ih.2 fs' hrest]
      · have hbad : df.cols.contains c = false := by
          have := List.find?_some hfind
          simpa using this
        have hcmem : c ∈ requiredBase := List.mem_of_find?_eq_some hfind
        have hstep : prepare_data_feeds ((s, df) :: rest) =
            Except.error (FeedErr.missingCol s c) := by
          simp only [prepare_data_feeds]
          rw [hfind, hidx]
          rfl
        constructor
        · rw [hstep]
          constructor
          · intro h
            cases h
          · intro h
            have := (h (s, df) (List.mem_cons_self _ _)).2 c hcmem
            rw [hbad] at this
            cases this
        · intro fs hfs
          rw [hstep] at hfs
          cases hfs
    · have hidx' : df.isDatetimeIndex = false := by
        cases hdf : df.isDatetimeIndex
        · rfl
        · exact absurd hdf hidx
      have hstep : prepare_data_feeds ((s, df) :: rest) =
          Except.error (FeedErr.badIndex s) := by
        unfold prepare_data_feeds
        rw [hidx']
        rfl
      constructor
      · rw [hstep]
        constructor
        · intro h
          cases h
        · intro h
          exact absurd (h (s, df) (List.mem_cons_self _ _)).1 hidx
      · intro fs hfs
        rw [hstep] at hfs
        cases hfs

/-- Witness for C9: a well-formed single-symbol input passes the checks
and yields exactly one feed. -/
theorem c9_prepare_data_feeds_witness :
    prepare_data_feeds [("AAPL", PDFrame.mk true requiredBase)] =
      Except.ok [("AAPL", PDFrame.mk true requiredBase)] :=
  (c9_prepare_data_feeds_fail_fast [("AAPL", PDFrame.mk true requiredBase)]).1.mpr (by decide)

/-! ### Strategy rebalance logic (src/strategies/sample.py)

Floats are modelled as real numbers; the IEEE non-value results that
the numpy pipeline can produce (NaN from `0/0`, from `log` of a
non-positive number, from `mean` of an empty selection, and the
infinities from `log 0`, which are immediately absorbed into NaN by the
following subtraction/mean in every path of this pipeline) are
modelled uniformly as `Option.none`.  Comparisons with `none` are
`False`, exactly as every IEEE comparison with NaN is false. -/

open scoped Classical

/-- np.log on a float that is a real number: NaN (none) for
non-positive arguments (conflating the -inf of log 0, which every use
site sends into NaN downstream). -/
noncomputable def flog (x : ℝ) : Option ℝ :=
  if 0 < x then some (Real.log x) else none

/-- Elementwise float negation. -/
def fneg : Option ℝ → Option ℝ
  | some a => some (-a)
  | none => none

/-- Float subtraction: NaN-propagating. -/
def fsub : Option ℝ → Option ℝ → Option ℝ
  | some a, some b => some (a - b)
  | _, _ => none

/-- Float division: NaN-propagating; division by zero yields a
non-value (in the pipeline the only division by zero is `0 / 0`,
i.e. IEEE NaN). -/
noncomputable def fdiv : Option ℝ → Option ℝ → Option ℝ
  | some a, some b => if b = 0 then none else some (a / b)
  | _, _ => none

/-- Sequence a list of floats: some list exactly when no entry is NaN. -/
def optSeq : List (Option ℝ) → Option (List ℝ)
  | [] => some []
  | some x :: r => (optSeq r).map (fun xs => x :: xs)
  | none :: _ => none

/-- np.mean of a float array: NaN when empty or when any entry is NaN. -/
noncomputable def fmean (l : List (Option ℝ)) : Option ℝ :=
  (optSeq l).bind (fun xs => if xs.isEmpty then none else some (xs.sum / xs.length))

/-- np.std (population, ddof = 0) of a float array: NaN when empty or
when any entry is NaN. -/
noncomputable def fstd (l : List (Option ℝ)) : Option ℝ :=
  (optSeq l).bind (fun xs =>
    if xs.isEmpty then none
    else some (Real.sqrt ((xs.map (fun x => (x - xs.sum / xs.length) ^ 2)).sum / xs.length)))

/-- np.clip(vols, 1e-6, None): clamp below by the volatility floor. -/
noncomputable def clipFloor (v : ℝ) : ℝ := max v 1e-6

/-- The `inactive` mask entry: `np.abs(z) < z_threshold` (false on NaN,
as every IEEE comparison with NaN). -/
def isInactive (o : Option ℝ) (t : ℝ) : Prop :=
  ∃ x, o = some x ∧ |x| < t

/-- The `active` mask entry: `np.abs(z) > z_threshold` (false on NaN). -/
def isActive (o : Option ℝ) (t : ℝ) : Prop :=
  ∃ x, o = some x ∧ t < |x|

/-- `log_rets = np.log(np.array(rets))` over the eligible (return,
volatility) observations. -/
noncomputable def logretsOf (pairs : List (ℝ × ℝ)) : List (Option ℝ) :=
  pairs.map (fun p => flog p.1)

/-- `market_ret = np.mean(log_rets)`. -/
noncomputable def meanOf (pairs : List (ℝ × ℝ)) : Option ℝ :=
  fmean (logretsOf pairs)

/-- `market_vol = np.std(log_rets)`. -/
noncomputable def stdOf (pairs : List (ℝ × ℝ)) : Option ℝ :=
  fstd (logretsOf pairs)

/-- `z = (log_rets - market_ret) / market_vol`. -/
noncomputable def zscoresOf (pairs : List (ℝ × ℝ)) : List (Option ℝ) :=
  (logretsOf pairs).map (fun o => fdiv (fsub o (meanOf pairs)) (stdOf pairs))

/-- `vols = np.clip(np.array(vols), 1e-6, None)`. -/
noncomputable def clipsOf (pairs : List (ℝ × ℝ)) : List ℝ :=
  pairs.map (fun p => clipFloor p.2)

/-- `signal = -z / vols`. -/
noncomputable def rawSignalsOf (pairs : List (ℝ × ℝ)) : List (Option ℝ) :=
  ((zscoresOf pairs).zip (clipsOf pairs)).map (fun q => fdiv (fneg q.1) (some q.2))

/-- `np.mean(signal[active])`: the mean of the raw signal restricted to
the active mask (NaN when no symbol is active). -/
noncomputable def activeMeanOf (pairs : List (ℝ × ℝ)) (thr : ℝ) : Option ℝ :=
  fmean (((rawSignalsOf pairs).zip (zscoresOf pairs)).filterMap
    (fun q => if isActive q.2 thr then some q.1 else none))

/-- `signal = signal - np.mean(signal[active]); signal[inactive] = 0.0`. -/
noncomputable def signalsOf (pairs : List (ℝ × ℝ)) (thr : ℝ) : List (Option ℝ) :=
  (((rawSignalsOf pairs).map (fun s => fsub s (activeMeanOf pairs thr))).zip
      (zscoresOf pairs)).map
    (fun q => if isInactive q.2 thr then some 0 else q.1)

/-- `weights_sum = np.sum(np.abs(signal))`. -/
noncomputable def sumAbsO (l : List (Option ℝ)) : Option ℝ :=
  (optSeq l).map (fun xs => (xs.map (fun x => |x|)).sum)

/-- Lines 91-115 of src/strategies/sample.py: the weight vector of one
rebalance event, computed from the eligible (return, volatility)
observations; `weights = signal / weights_sum` when the absolute-signal
sum is strictly positive, otherwise `np.zeros(len(available_symbols))`
(the NaN comparison `weights_sum > 0` is false). -/
noncomputable def computeWeights (pairs : List (ℝ × ℝ)) (thr : ℝ) : List ℝ :=
  match sumAbsO (signalsOf pairs thr) with
  | some s =>
    if 0 < s then (signalsOf pairs thr).map (fun o => o.getD 0 / s)
    else List.replicate pairs.length 0
  | none => List.replicate pairs.length 0

/-- Sum of absolute values of a weight vector. -/
def absSum (l : List ℝ) : ℝ := (l.map (fun x => |x|)).sum

/-- The per-symbol state read by `next` at a rebalance event: whether
the symbol's feed has a bar (`len(data) > 0`), the current return and
volatility indicator values (`none` = NaN), and the current position
size and close price. -/
structure SymObs where
  hasBars : Bool
  ret : Option ℝ
  vol : Option ℝ
  size : ℝ
  close : ℝ

/-- Line 75 of src/strategies/sample.py:
`len(self.data.returns) == 0 | len(self.data.volatility) == 0`.
Python parses this as the chained comparison
`lenR == (0 | lenV) and (0 | lenV) == 0` — both operands are lengths of
indicator lines of the first data feed, the same for every symbol in
the loop. -/
def skipGuard (lenR lenV : ℕ) : Bool :=
  (lenR == (0 ||| lenV)) && ((0 ||| lenV) == 0)

/-- Lines 72-86: the eligible symbols of a rebalance event, in
dictionary order.  `L` is the (shared) length of the first feed's
returns and volatility indicator lines. -/
def eligList (L : ℕ) (syms : List SymObs) : List SymObs :=
  syms.filter (fun s => s.hasBars && !skipGuard L L && s.ret.isSome && s.vol.isSome)

/-- The (return, volatility) observations of a list of eligible
symbols (the parallel `rets` / `vols` arrays). -/
def obsPairs (l : List SymObs) : List (ℝ × ℝ) :=
  l.map (fun s => (s.ret.getD 0, s.vol.getD 0))

/-- Lines 121-135, one loop iteration: the rebalancer decision for one
symbol; `some target` is an `order_target_size` request with
`target = position.size + (target_value - current_value) / close`,
`none` means no order.  The band check is
`abs(value_diff) > portfolio_value * 0.02`. -/
noncomputable def orderDecision (pv w size close : ℝ) : Option ℝ :=
  if pv * 0.02 < |pv * w - size * close| then
    some (size + (pv * w - size * close) / close)
  else none

/-- Lines 67-135 of src/strategies/sample.py: one full rebalance event.
Returns the per-eligible-symbol order decisions (empty when no symbol
is eligible: the early `return`). -/
noncomputable def strategyRebalance (L : ℕ) (syms : List SymObs) (pv thr : ℝ) :
    List (Option ℝ) :=
  if (eligList L syms).isEmpty then []
  else
    ((eligList L syms).zip (computeWeights (obsPairs (eligList L syms)) thr)).map
      (fun q => orderDecision pv q.2 q.1.size q.1.close)

@[simp] lemma fneg_none : fneg none = none := rfl

@[simp] lemma fneg_some (a : ℝ) : fneg (some a) = some (-a) := rfl

@[simp] lemma fsub_none_left (o : Option ℝ) : fsub none o = none := by cases o <;> rfl

@[simp] lemma fsub_none_right (o : Option ℝ) : fsub o none = none := by cases o <;> rfl

@[simp] lemma fsub_some (a b : ℝ) : fsub (some a) (some b) = some (a - b) := rfl

@[simp] lemma fdiv_none_left (o : Option ℝ) : fdiv none o = none := by cases o <;> rfl

@[simp] lemma fdiv_none_right (o : Option ℝ) : fdiv o none = none := by cases o <;> rfl

@[simp] lemma fdiv_some (a b : ℝ) :
    fdiv (some a) (some b) = if b = 0 then none else some (a / b) := rfl

lemma fdiv_some_zero (o : Option ℝ) : fdiv o (some 0) = none := by
  cases o with
  | none => rfl
  | some a => simp [fdiv]

@[simp] lemma optSeq_nil : optSeq [] = some [] := rfl

@[simp] lemma optSeq_cons_some (x : ℝ) (r : List (Option ℝ)) :
    optSeq (some x :: r) = (optSeq r).map (fun xs => x :: xs) := rfl

@[simp] lemma optSeq_cons_none (r : List (Option ℝ)) : optSeq (none :: r) = none := rfl

@[simp] lemma isActive_none (t : ℝ) : isActive none t ↔ False := by simp [isActive]

@[simp] lemma isActive_some (x t : ℝ) : isActive (some x) t ↔ t < |x| := by simp [isActive]

@[simp] lemma isInactive_none (t : ℝ) : isInactive none t ↔ False := by simp [isInactive]

@[simp] lemma isInactive_some (x t : ℝ) : isInactive (some x) t ↔ |x| < t := by
  simp [isInactive]

lemma optSeq_eq_some : ∀ {l : List (Option ℝ)} {xs : List ℝ},
    optSeq l = some xs → l = xs.map some := by
  intro l
  induction l with
  | nil =>
    intro xs h
    simp only [optSeq_nil, Option.some.injEq] at h
    rw [← h]
    rfl
  | cons o r ih =>
    intro xs h
    cases o with
    | none => simp at h
    | some x =>
      simp only [optSeq_cons_some] at h
      rcases hr : optSeq r with _ | ys
      · rw [hr] at h
        simp at h
      · rw [hr] at h
        simp at h
        rw [← h, List.map_cons, ← ih hr]

lemma optSeq_map_some (xs : List ℝ) : optSeq (xs.map some) = some xs := by
  induction xs with
  | nil => rfl
  | cons x r ih => simp [ih]

lemma optSeq_length {l : List (Option ℝ)} {xs : List ℝ} (h : optSeq l = some xs) :
    l.length = xs.length := by
  rw [optSeq_eq_some h, List.length_map]

lemma optSeq_all_isSome {l : List (Option ℝ)} (h : ∀ o ∈ l, o.isSome) :
    ∃ xs, optSeq l = some xs := by
  induction l with
  | nil => exact ⟨[], rfl⟩
  | cons o r ih =>
    rcases ih (fun o ho => h o (List.mem_cons_of_mem _ ho)) with ⟨xs, hxs⟩
    cases o with
    | none => simpa using h none (List.mem_cons_self _ _)
    | some x => exact ⟨x :: xs, by simp [hxs]⟩

lemma fmean_eq_some {l : List (Option ℝ)} {m : ℝ} (h : fmean l = some m) :
    ∃ xs, optSeq l = some xs ∧ xs ≠ [] ∧ m = xs.sum / xs.length := by
  rcases hs : optSeq l with _ | xs
  · rw [fmean, hs] at h
    simp at h
  · rw [fmean, hs] at h
    rw [Option.some_bind] at h
    by_cases he : xs.isEmpty
    · rw [if_pos he] at h
      cases h
    · rw [if_neg he] at h
      exact ⟨xs, rfl, by simpa [List.isEmpty_iff] using he, (Option.some.inj h).symm⟩

lemma fstd_eq_some {l : List (Option ℝ)} {s : ℝ} (h : fstd l = some s) :
    ∃ xs, optSeq l = some xs ∧ xs ≠ [] ∧
      s = Real.sqrt ((xs.map (fun x => (x - xs.sum / xs.length) ^ 2)).sum / xs.length) := by
  rcases hs : optSeq l with _ | xs
  · rw [fstd, hs] at h
    simp at h
  · rw [fstd, hs] at h
    rw [Option.some_bind] at h
    by_cases he : xs.isEmpty
    · rw [if_pos he] at h
      cases h
    · rw [if_neg he] at h
      exact ⟨xs, rfl, by simpa [List.isEmpty_iff] using he, (Option.some.inj h).symm⟩

@[simp] lemma logretsOf_length (pairs : List (ℝ × ℝ)) :
    (logretsOf pairs).length = pairs.length := by simp [logretsOf]

@[simp] lemma zscoresOf_length (pairs : List (ℝ × ℝ)) :
    (zscoresOf pairs).length = pairs.length := by simp [zscoresOf]

@[simp] lemma clipsOf_length (pairs : List (ℝ × ℝ)) :
    (clipsOf pairs).length = pairs.length := by simp [clipsOf]

@[simp] lemma rawSignalsOf_length (pairs : List (ℝ × ℝ)) :
    (rawSignalsOf pairs).length = pairs.length := by simp [rawSignalsOf]

@[simp] lemma signalsOf_length (pairs : List (ℝ × ℝ)) (thr : ℝ) :
    (signalsOf pairs thr).length = pairs.length := by simp [signalsOf]

lemma computeWeights_length (pairs : List (ℝ × ℝ)) (thr : ℝ) :
    (computeWeights pairs thr).length = pairs.length := by
  unfold computeWeights
  rcases sumAbsO (signalsOf pairs thr) with _ | s
  · simp
  · by_cases hs : 0 < s
    · simp [hs]
    · simp [hs]

lemma clipFloor_pos (v : ℝ) : 0 < clipFloor v := by
  have : (0:ℝ) < 1e-6 := by norm_num
  exact lt_of_lt_of_le this (le_max_right v 1e-6)

lemma clipFloor_ne_zero (v : ℝ) : clipFloor v ≠ 0 := ne_of_gt (clipFloor_pos v)

lemma rawSignals_all_none {pairs : List (ℝ × ℝ)}
    (h : ∀ o ∈ zscoresOf pairs, o = none) : ∀ o ∈ rawSignalsOf pairs, o = none := by
  intro o ho
  rcases List.mem_map.mp ho with ⟨q, hq, rfl⟩
  have hz : q.1 = none := h q.1 (List.of_mem_zip hq).1
  rw [hz]
  simp

lemma signals_all_none {pairs : List (ℝ × ℝ)} {thr : ℝ}
    (h : ∀ o ∈ zscoresOf pairs, o = none) : ∀ o ∈ signalsOf pairs thr, o = none := by
  intro o ho
  rcases List.mem_map.mp ho with ⟨q, hq, rfl⟩
  have hz : q.2 = none := h q.2 (List.of_mem_zip hq).2
  rw [hz]
  rw [if_neg (by simp)]
  rcases List.mem_map.mp (List.of_mem_zip hq).1 with ⟨r, hr, hrq⟩
  have : r = none := rawSignals_all_none h r hr
  rw [← hrq, this]
  simp

lemma computeWeights_some {pairs : List (ℝ × ℝ)} {thr s : ℝ}
    (hs : sumAbsO (signalsOf pairs thr) = some s) :
    computeWeights pairs thr =
      if 0 < s then (signalsOf pairs thr).map (fun o => o.getD 0 / s)
      else List.replicate pairs.length 0 := by
  unfold computeWeights
  rw [hs]

lemma computeWeights_none {pairs : List (ℝ × ℝ)} {thr : ℝ}
    (hs : sumAbsO (signalsOf pairs thr) = none) :
    computeWeights pairs thr = List.replicate pairs.length 0 := by
  unfold computeWeights
  rw [hs]

lemma computeWeights_of_z_none {pairs : List (ℝ × ℝ)} {thr : ℝ}
    (h : ∀ o ∈ zscoresOf pairs, o = none) :
    computeWeights pairs thr = List.replicate pairs.length 0 := by
  rcases hsig : signalsOf pairs thr with _ | ⟨o, rest⟩
  · have hs : sumAbsO (signalsOf pairs thr) = some 0 := by
      rw [hsig]
      simp [sumAbsO]
    rw [computeWeights_some hs, if_neg (lt_irrefl 0)]
  · have ho : o = none := signals_all_none h o (by rw [hsig]; exact List.mem_cons_self _ _)
    have hs : sumAbsO (signalsOf pairs thr) = none := by
      rw [hsig, ho]
      simp [sumAbsO]
    exact computeWeights_none hs

lemma zscores_all_none_of_std_zero {pairs : List (ℝ × ℝ)}
    (h : stdOf pairs = some 0) : ∀ o ∈ zscoresOf pairs, o = none := by
  intro o ho
  rcases List.mem_map.mp ho with ⟨lr, _, rfl⟩
  rw [h]
  exact fdiv_some_zero _

lemma zip_replicate_map {α γ : Type} (g : α → ℝ → γ) (c : ℝ) (l : List α) :
    ((l.zip (List.replicate l.length c)).map fun q => g q.1 q.2) = l.map (fun a => g a c) := by
  induction l with
  | nil => rfl
  | cons a r ih =>
    rw [List.length_cons, List.replicate_succ, List.zip_cons_cons, List.map_cons, ih]
    rfl

/-- Claim C2 (amended): when the cross-sectional standard deviation of
the log-returns over the eligible set is a real zero (in particular
with exactly one eligible symbol with positive return), every z-score
is NaN, the NaN comparison `weights_sum > 0` is false and the weight
vector degenerates to exact zeros — no NaN or infinity reaches the
weights — but the rebalance event is NOT skipped: the rebalancer loop
still runs with all-zero weights, so an `order_target_size` request
(flattening the position toward zero) is issued for every eligible
symbol whose current notional exceeds the no-trade band. -/
theorem c2_zero_std_flattens (L : ℕ) (syms : List SymObs) (pv thr : ℝ)
    (h : stdOf (obsPairs (eligList L syms)) = some 0) :
    computeWeights (obsPairs (eligList L syms)) thr =
      List.replicate (eligList L syms).length 0 ∧
    strategyRebalance L syms pv thr =
      (eligList L syms).map (fun s => orderDecision pv 0 s.size s.close) := by
  have hz := zscores_all_none_of_std_zero h
  have hw : computeWeights (obsPairs (eligList L syms)) thr =
      List.replicate (obsPairs (eligList L syms)).length 0 := computeWeights_of_z_none hz
  have hlen : (obsPairs (eligList L syms)).length = (eligList L syms).length := by
    simp [obsPairs]
  have hne : (eligList L syms).isEmpty = false := by
    rcases fstd_eq_some h with ⟨xs, hxs, hxs_ne, _⟩
    have h1 : (logretsOf (obsPairs (eligList L syms))).length = xs.length := optSeq_length hxs
    have h2 : xs.length ≠ 0 := fun h0 => hxs_ne (List.length_eq_zero.mp h0)
    have h3 : (eligList L syms).length ≠ 0 := by
      rw [logretsOf_length, hlen] at h1
      omega
    rcases he : eligList L syms with _ | ⟨s, r⟩
    · rw [he] at h3
      exact absurd rfl h3
    · rfl
  refine ⟨by rw [hw, hlen], ?_⟩
  unfold strategyRebalance
  rw [if_neg (by rw [hne]; exact Bool.false_ne_true)]
  rw [hw, hlen]
  exact zip_replicate_map (fun s w => orderDecision pv w s.size s.close) 0 (eligList L syms)

lemma c2ex_elig : eligList 1 [SymObs.mk true (some 1) (some 1) 10 5] =
    [SymObs.mk true (some 1) (some 1) 10 5] := by
  have hg : skipGuard 1 1 = false := by decide
  simp [eligList, hg]

lemma c2ex_pairs : obsPairs [SymObs.mk true (some 1) (some 1) 10 5] = [((1:ℝ), (1:ℝ))] := by
  simp [obsPairs]

lemma c2ex_std : stdOf (obsPairs (eligList 1 [SymObs.mk true (some 1) (some 1) 10 5])) =
    some 0 := by
  rw [c2ex_elig, c2ex_pairs]
  have hlog : logretsOf [((1:ℝ), (1:ℝ))] = [some 0] := by
    norm_num [logretsOf, flog, Real.log_one]
  unfold stdOf
  rw [hlog]
  norm_num [fstd, Real.sqrt_zero]

/-- Counterexample to claim C2 as stated: a rebalance event whose
eligible set is a single symbol (cross-sectional std of the log-returns
is exactly 0) is NOT skipped — the weights degenerate to zero and,
because the symbol's current notional (10 shares x close 5 = 50)
exceeds the band (2% of portfolio value 100), an `order_target_size`
request IS issued, targeting size 0. -/
theorem c2_not_skipped_counterexample :
    strategyRebalance 1 [SymObs.mk true (some 1) (some 1) 10 5] 100 (1/2) = [some 0] := by
  have hz := zscores_all_none_of_std_zero (c2ex_pairs ▸ c2ex_elig ▸ c2ex_std)
  have hw : computeWeights [((1:ℝ), (1:ℝ))] (1/2) = [0] := by
    rw [computeWeights_of_z_none hz]
    rfl
  have hord : orderDecision 100 0 10 5 = some 0 := by
    have hcond : (100:ℝ) * 0.02 < |100 * 0 - 10 * 5| := by
      rw [show (100:ℝ) * 0 - 10 * 5 = -50 by norm_num, abs_neg,
        abs_of_pos (show (0:ℝ) < 50 by norm_num)]
      norm_num
    unfold orderDecision
    rw [if_pos hcond]
    norm_num
  unfold strategyRebalance
  rw [c2ex_elig, c2ex_pairs, hw]
  rw [if_neg (by simp)]
  simp [hord]

/-- Witness for the amended C2 at the concrete single-symbol state used
by the counterexample: the std hypothesis holds and the amended
conclusion follows. -/
theorem c2_zero_std_flattens_witness :
    computeWeights (obsPairs (eligList 1 [SymObs.mk true (some 1) (some 1) 10 5])) (1/2) =
      List.replicate (eligList 1 [SymObs.mk true (some 1) (some 1) 10 5]).length 0 ∧
    strategyRebalance 1 [SymObs.mk true (some 1) (some 1) 10 5] 100 (1/2) =
      (eligList 1 [SymObs.mk true (some 1) (some 1) 10 5]).map
        (fun s => orderDecision 100 0 s.size s.close) :=
  c2_zero_std_flattens 1 [SymObs.mk true (some 1) (some 1) 10 5] 100 (1/2) c2ex_std

/-- Claim C3: at a rebalance event (the first feed's indicator lines
hold at least one bar, as at every strategy callback), the eligible
symbol set is exactly the set of symbols whose feed has bars and whose
current return and volatility are both non-NaN — invalid symbols are
silently discarded, valid ones are all kept — and when it is empty the
event issues no order at all. -/
theorem c3_eligibility (L : ℕ) (syms : List SymObs) (pv thr : ℝ) (h : 1 ≤ L) :
    eligList L syms = syms.filter (fun s => s.hasBars && s.ret.isSome && s.vol.isSome) ∧
    (eligList L syms = [] → strategyRebalance L syms pv thr = []) := by
  have hor : (0 ||| L) = L := Nat.zero_or L
  have hguard : skipGuard L L = false := by
    unfold skipGuard
    rw [hor]
    have : (L == 0) = false := by
      rw [beq_eq_false_iff_ne]
      omega
    rw [this, Bool.and_false]
  constructor
  · unfold eligList
    apply List.filter_congr
    intro s _
    rw [hguard]
    simp
  · intro he
    unfold strategyRebalance
    rw [if_pos (by rw [he]; rfl)]

/-- Witness for C3 at a concrete rebalance state: one symbol with a NaN
volatility is discarded by the filter and the empty event places no
order. -/
theorem c3_eligibility_witness :
    1 ≤ 1 ∧
    (eligList 1 [SymObs.mk true (some 1) none 0 1] =
      List.filter (fun s => s.hasBars && s.ret.isSome && s.vol.isSome)
        [SymObs.mk true (some 1) none 0 1] ∧
    (eligList 1 [SymObs.mk true (some 1) none 0 1] = [] →
      strategyRebalance 1 [SymObs.mk true (some 1) none 0 1] 100 1 = [])) :=
  ⟨le_refl 1, c3_eligibility 1 [SymObs.mk true (some 1) none 0 1] 100 1 (le_refl 1)⟩

/-- Claim C7: the no-trade band — when the absolute difference between
target notional and current notional is at most 2% of portfolio value,
no order is issued for the symbol (its position, hence target size,
stays at the current size); an order is requested only when the
difference strictly exceeds the band. -/
theorem c7_no_trade_band (pv w size close : ℝ)
    (h : |pv * w - size * close| ≤ pv * 0.02) :
    orderDecision pv w size close = none := by
  unfold orderDecision
  rw [if_neg (not_lt.mpr h)]

/-- Witness for C7: a flat target inside the band issues no order. -/
theorem c7_no_trade_band_witness :
    |(100:ℝ) * 0 - 1 * 1| ≤ 100 * 0.02 ∧ orderDecision 100 0 1 1 = none := by
  have hb : |(100:ℝ) * 0 - 1 * 1| ≤ 100 * 0.02 := by
    rw [show (100:ℝ) * 0 - 1 * 1 = -1 by norm_num, abs_neg, abs_one]
    norm_num
  exact ⟨hb, c7_no_trade_band 100 0 1 1 hb⟩

/-- Claim C10: whenever the rebalancer issues an order, the requested
target size is exactly portfolio_value * weight / close — the current
position size cancels algebraically in
`size + (target_value - size * close) / close` (for a nonzero close
price). -/
theorem c10_order_targets_weight_size (pv w size close t : ℝ) (hc : close ≠ 0)
    (h : orderDecision pv w size close = some t) : t = pv * w / close := by
  unfold orderDecision at h
  by_cases hb : pv * 0.02 < |pv * w - size * close|
  · rw [if_pos hb] at h
    have ht := (Option.some.inj h).symm
    rw [ht]
    field_simp
  · rw [if_neg hb] at h
    cases h

lemma z_clean_or_none (pairs : List (ℝ × ℝ)) :
    (∀ o ∈ zscoresOf pairs, o = none) ∨
    (∃ xs mv sv, optSeq (logretsOf pairs) = some xs ∧ xs ≠ [] ∧
      meanOf pairs = some mv ∧ stdOf pairs = some sv ∧ sv ≠ 0 ∧
      zscoresOf pairs = xs.map (fun x => some ((x - mv) / sv))) := by
  rcases hm : meanOf pairs with _ | mv
  · left
    intro o ho
    rcases List.mem_map.mp ho with ⟨lr, _, rfl⟩
    rw [hm]
    simp
  · rcases hs : stdOf pairs with _ | sv
    · left
      intro o ho
      rcases List.mem_map.mp ho with ⟨lr, _, rfl⟩
      rw [hs]
      simp
    · by_cases hsv : sv = 0
      · left
        subst hsv
        exact zscores_all_none_of_std_zero hs
      · right
        rcases fmean_eq_some hm with ⟨xs, hxs, hne, _⟩
        refine ⟨xs, mv, sv, hxs, hne, rfl, rfl, hsv, ?_⟩
        unfold zscoresOf
        rw [optSeq_eq_some hxs, hm, hs, List.map_map]
        apply List.map_congr_left
        intro x _
        show fdiv (fsub (some x) (some mv)) (some sv) = some ((x - mv) / sv)
        rw [fsub_some, fdiv_some, if_neg hsv]

lemma clipsOf_ne_zero {pairs : List (ℝ × ℝ)} : ∀ c ∈ clipsOf pairs, c ≠ 0 := by
  intro c hc
  rcases List.mem_map.mp hc with ⟨p, _, rfl⟩
  exact clipFloor_ne_zero p.2

lemma rawSignals_isSome_of_z_isSome {pairs : List (ℝ × ℝ)}
    (h : ∀ o ∈ zscoresOf pairs, o.isSome) : ∀ o ∈ rawSignalsOf pairs, o.isSome := by
  intro o ho
  rcases List.mem_map.mp ho with ⟨q, hq, rfl⟩
  have h1 : q.1.isSome := h q.1 (List.of_mem_zip hq).1
  have h2 : q.2 ≠ 0 := clipsOf_ne_zero q.2 (List.of_mem_zip hq).2
  rcases Option.isSome_iff_exists.mp h1 with ⟨x, hx⟩
  rw [hx]
  simp [fdiv, h2]

lemma mem_zip_right {α β : Type} : ∀ {l₁ : List α} {l₂ : List β} {b : β},
    l₁.length = l₂.length → b ∈ l₂ → ∃ a, (a, b) ∈ l₁.zip l₂ := by
  intro l₁
  induction l₁ with
  | nil =>
    intro l₂ b h hb
    cases l₂ with
    | nil => cases hb
    | cons c r => simp at h
  | cons a r ih =>
    intro l₂ b h hb
    cases l₂ with
    | nil => cases hb
    | cons b2 r2 =>
      rcases List.mem_cons.mp hb with rfl | hb2
      · exact ⟨a, List.mem_cons_self _ _⟩
      · rcases ih (by simpa using h) hb2 with ⟨a2, ha2⟩
        exact ⟨a2, List.mem_cons_of_mem _ ha2⟩

lemma fmean_isSome {l : List (Option ℝ)} (hne : l ≠ []) (h : ∀ o ∈ l, o.isSome) :
    ∃ m, fmean l = some m := by
  rcases optSeq_all_isSome h with ⟨xs, hxs⟩
  have hxs_ne : xs ≠ [] := by
    intro h0
    subst h0
    exact hne (by simpa using optSeq_eq_some hxs)
  refine ⟨xs.sum / xs.length, ?_⟩
  rw [fmean, hxs, Option.some_bind, if_neg (by simpa [List.isEmpty_iff] using hxs_ne)]

lemma signals_isSome_of_active {pairs : List (ℝ × ℝ)} {thr : ℝ} {o : Option ℝ}
    (ho : o ∈ zscoresOf pairs) (hact : isActive o thr) :
    ∀ w ∈ signalsOf pairs thr, w.isSome := by
  have hz_all : ∀ u ∈ zscoresOf pairs, u.isSome := by
    rcases z_clean_or_none pairs with hall | ⟨xs, mv, sv, _, _, _, _, _, hzeq⟩
    · rw [hall o ho] at hact
      simp at hact
    · rw [hzeq]
      intro u hu
      rcases List.mem_map.mp hu with ⟨x, _, rfl⟩
      rfl
  have hraw_all := rawSignals_isSome_of_z_isSome hz_all
  rcases mem_zip_right (by rw [rawSignalsOf_length, zscoresOf_length]) ho with ⟨ra, hra⟩
  set sel := ((rawSignalsOf pairs).zip (zscoresOf pairs)).filterMap
    (fun q => if isActive q.2 thr then some q.1 else none) with hsel
  have hsel_mem : ra ∈ sel := List.mem_filterMap.mpr ⟨(ra, o), hra, by rw [if_pos hact]⟩
  have hsel_ne : sel ≠ [] := List.ne_nil_of_mem hsel_mem
  have hsel_all : ∀ u ∈ sel, u.isSome := by
    intro u hu
    rcases List.mem_filterMap.mp hu with ⟨q, hq, hqe⟩
    by_cases ha : isActive q.2 thr
    · rw [if_pos ha] at hqe
      rw [← Option.some.inj hqe]
      exact hraw_all q.1 (List.of_mem_zip hq).1
    · rw [if_neg ha] at hqe
      cases hqe
  rcases fmean_isSome hsel_ne hsel_all with ⟨am, ham⟩
  have hameq : activeMeanOf pairs thr = some am := ham
  intro w hw
  rcases List.mem_map.mp hw with ⟨q, hq, rfl⟩
  by_cases hin : isInactive q.2 thr
  · rw [if_pos hin]
    rfl
  · rw [if_neg hin]
    rcases List.mem_map.mp (List.of_mem_zip hq).1 with ⟨rr, hrr, hrq⟩
    rw [← hrq]
    rcases Option.isSome_iff_exists.mp (hraw_all rr hrr) with ⟨rv, hrv⟩
    rw [hrv, hameq]
    rfl

lemma sumAbsO_eq_some {l : List (Option ℝ)} {s : ℝ} (h : sumAbsO l = some s) :
    ∃ ys, optSeq l = some ys ∧ s = (ys.map (fun y => |y|)).sum := by
  rcases ho : optSeq l with _ | ys
  · rw [sumAbsO, ho] at h
    cases h
  · rw [sumAbsO, ho] at h
    simp at h
    exact ⟨ys, rfl, h.symm⟩

lemma sumAbsO_signals_isSome_of_active {pairs : List (ℝ × ℝ)} {thr : ℝ} {o : Option ℝ}
    (ho : o ∈ zscoresOf pairs) (hact : isActive o thr) :
    ∃ s, sumAbsO (signalsOf pairs thr) = some s := by
  rcases optSeq_all_isSome (signals_isSome_of_active ho hact) with ⟨ys, hys⟩
  exact ⟨(ys.map (fun y => |y|)).sum, by rw [sumAbsO, hys]; rfl⟩

lemma absSum_replicate (n : ℕ) : absSum (List.replicate n (0:ℝ)) = 0 := by
  simp [absSum]

lemma sum_map_div (ys : List ℝ) (f : ℝ → ℝ) (s : ℝ) :
    (ys.map (fun y => f y / s)).sum = (ys.map f).sum / s := by
  induction ys with
  | nil => simp
  | cons y r ih => simp [ih, add_div]

/-- Claim C4: at every rebalance event that reaches the weight
computation, the sum of absolute weights is exactly 1 or exactly 0,
and it is 0 only when no symbol is active (`|z| > z_threshold` holds
for no symbol — in particular whenever the z-scores are NaN) or the sum
of absolute signals is exactly zero. -/
theorem c4_weight_normalization (pairs : List (ℝ × ℝ)) (thr : ℝ) :
    absSum (computeWeights pairs thr) = 1 ∨
    (absSum (computeWeights pairs thr) = 0 ∧
      ((∀ o ∈ zscoresOf pairs, ¬ isActive o thr) ∨
        sumAbsO (signalsOf pairs thr) = some 0)) := by
  rcases hw : sumAbsO (signalsOf pairs thr) with _ | s
  · right
    rw [computeWeights_none hw]
    refine ⟨absSum_replicate _, Or.inl ?_⟩
    intro o ho hact
    rcases sumAbsO_signals_isSome_of_active ho hact with ⟨s, hs⟩
    rw [hw] at hs
    cases hs
  · by_cases hpos : 0 < s
    · left
      rw [computeWeights_some hw, if_pos hpos]
      rcases sumAbsO_eq_some hw with ⟨ys, hys, hsum⟩
      rw [optSeq_eq_some hys, List.map_map]
      unfold absSum
      rw [List.map_map]
      have hfun : ∀ y ∈ ys,
          ((fun x => |x|) ∘ ((fun o : Option ℝ => o.getD 0 / s) ∘ some)) y = |y| / s := by
        intro y _
        show |(some y).getD 0 / s| = |y| / s
        rw [Option.getD_some, abs_div, abs_of_pos hpos]
      rw [List.map_congr_left hfun, sum_map_div ys (fun y => |y|) s, ← hsum]
      exact div_self (ne_of_gt hpos)
    · right
      rcases sumAbsO_eq_some hw with ⟨ys, hys, hsum⟩
      have hs0 : s = 0 := by
        refine le_antisymm (not_lt.mp hpos) ?_
        rw [hsum]
        refine List.sum_nonneg ?_
        intro x hx
        rcases List.mem_map.mp hx with ⟨y, _, rfl⟩
        exact abs_nonneg y
      rw [computeWeights_some hw, if_neg hpos]
      exact ⟨absSum_replicate _, Or.inr (by rw [hs0])⟩

/-- Witness for C4: the normalization dichotomy instantiated at a
concrete (empty) rebalance event. -/
theorem c4_weight_normalization_witness :
    absSum (computeWeights ([] : List (ℝ × ℝ)) 1) = 1 ∨
    (absSum (computeWeights ([] : List (ℝ × ℝ)) 1) = 0 ∧
      ((∀ o ∈ zscoresOf ([] : List (ℝ × ℝ)), ¬ isActive o 1) ∨
        sumAbsO (signalsOf ([] : List (ℝ × ℝ)) 1) = some 0)) :=
  c4_weight_normalization [] 1

lemma signals_getElem_of_inactive {pairs : List (ℝ × ℝ)} {thr : ℝ} {i : ℕ} {x : ℝ}
    (hz : (zscoresOf pairs)[i]? = some (some x)) (hlt : |x| < thr) :
    (signalsOf pairs thr)[i]? = some (some 0) := by
  have hiz : i < (zscoresOf pairs).length := by
    by_contra hcon
    rw [List.getElem?_eq_none (le_of_not_lt hcon)] at hz
    cases hz
  have hi : i < pairs.length := by
    rw [zscoresOf_length] at hiz
    exact hiz
  have hzi : (zscoresOf pairs)[i] = some x := by
    rw [List.getElem?_eq_getElem hiz] at hz
    exact Option.some.inj hz
  have his : i < (signalsOf pairs thr).length := by
    rw [signalsOf_length]
    exact hi
  rw [List.getElem?_eq_getElem his]
  simp only [Option.some.injEq]
  unfold signalsOf
  simp only [List.getElem_map, List.getElem_zip]
  rw [hzi]
  rw [if_pos ((isInactive_some x thr).mpr hlt)]

/-- Claim C5: an eligible symbol whose cross-sectional z-score is a
real number with `|z| < z_threshold` (the `inactive` mask) receives a
weight of exactly 0 at that rebalance event. -/
theorem c5_inactive_zero_weight (pairs : List (ℝ × ℝ)) (thr : ℝ) (i : ℕ) (x : ℝ)
    (hz : (zscoresOf pairs)[i]? = some (some x)) (hlt : |x| < thr) :
    (computeWeights pairs thr)[i]? = some 0 := by
  have hiz : i < (zscoresOf pairs).length := by
    by_contra hcon
    rw [List.getElem?_eq_none (le_of_not_lt hcon)] at hz
    cases hz
  have hi : i < pairs.length := by
    rw [zscoresOf_length] at hiz
    exact hiz
  have hsig := signals_getElem_of_inactive hz hlt
  rcases hw : sumAbsO (signalsOf pairs thr) with _ | s
  · rw [computeWeights_none hw, List.getElem?_replicate, if_pos hi]
  · by_cases hpos : 0 < s
    · rw [computeWeights_some hw, if_pos hpos, List.getElem?_map, hsig]
      simp
    · rw [computeWeights_some hw, if_neg hpos, List.getElem?_replicate, if_pos hi]

lemma c5ex_log : logretsOf [((Real.exp 1), (1:ℝ)), (Real.exp 1, 1), (Real.exp 3, 1), (Real.exp 3, 1)] =
    [some 1, some 1, some 3, some 3] := by
  norm_num [logretsOf, flog, Real.exp_pos, Real.log_exp]

lemma c5ex_mean : meanOf [((Real.exp 1), (1:ℝ)), (Real.exp 1, 1), (Real.exp 3, 1), (Real.exp 3, 1)] =
    some 2 := by
  unfold meanOf
  rw [c5ex_log]
  norm_num [fmean]
  simp

lemma c5ex_std : stdOf [((Real.exp 1), (1:ℝ)), (Real.exp 1, 1), (Real.exp 3, 1), (Real.exp 3, 1)] =
    some 1 := by
  unfold stdOf
  rw [c5ex_log]
  norm_num [fstd, Real.sqrt_one]
  simp

lemma c5ex_z : (zscoresOf [((Real.exp 1), (1:ℝ)), (Real.exp 1, 1), (Real.exp 3, 1), (Real.exp 3, 1)])[0]? =
    some (some (-1 : ℝ)) := by
  unfold zscoresOf
  rw [c5ex_log, c5ex_mean, c5ex_std]
  norm_num [fsub, fdiv]

/-- Witness for C5 at a concrete rebalance event with four eligible
symbols, threshold 2 and z-score -1 for the first symbol: |z| is below
the threshold and its weight is exactly 0. -/
theorem c5_inactive_zero_weight_witness :
    |(-1:ℝ)| < 2 ∧
    (computeWeights [((Real.exp 1), (1:ℝ)), (Real.exp 1, 1), (Real.exp 3, 1), (Real.exp 3, 1)] 2)[0]? =
      some 0 := by
  have hlt : |(-1:ℝ)| < 2 := by
    rw [abs_neg, abs_one]
    norm_num
  exact ⟨hlt, c5_inactive_zero_weight _ 2 0 (-1) c5ex_z hlt⟩

lemma optSeq_map_option (g : ℝ → ℝ) : ∀ l : List (Option ℝ),
    optSeq (l.map (Option.map g)) = (optSeq l).map (fun xs => xs.map g) := by
  intro l
  induction l with
  | nil => rfl
  | cons o r ih =>
    cases o with
    | none => rfl
    | some x =>
      simp only [List.map_cons, Option.map_some', optSeq_cons_some, ih]
      rcases optSeq r with _ | xs
      · rfl
      · rfl

lemma fmean_map_div (l : List (Option ℝ)) (c : ℝ) :
    fmean (l.map (Option.map (fun x => x / c))) = Option.map (fun x => x / c) (fmean l) := by
  unfold fmean
  rw [optSeq_map_option]
  rcases optSeq l with _ | xs
  · rfl
  · rw [Option.map_some', Option.some_bind, Option.some_bind]
    by_cases he : xs.isEmpty
    · rw [if_pos he, if_pos (by simpa using he)]
      rfl
    · rw [if_neg he, if_neg (by simpa using he)]
      rw [Option.map_some']
      congr 1
      rw [List.length_map]
      rw [show (xs.map fun x => x / c).sum = xs.sum / c from by
        simpa using sum_map_div xs (fun y => y) c]
      rw [div_div, div_div, mul_comm]

lemma fsub_map_div (a b : Option ℝ) (c : ℝ) :
    fsub (Option.map (fun x => x / c) a) (Option.map (fun x => x / c) b) =
      Option.map (fun x => x / c) (fsub a b) := by
  cases a <;> cases b <;> simp [fsub, sub_div]

lemma sumAbsO_map_div (l : List (Option ℝ)) {c : ℝ} (hc : 0 < c) :
    sumAbsO (l.map (Option.map (fun x => x / c))) =
      Option.map (fun s => s / c) (sumAbsO l) := by
  unfold sumAbsO
  rw [optSeq_map_option]
  rcases optSeq l with _ | xs
  · rfl
  · rw [Option.map_some', Option.map_some', Option.map_some']
    congr 1
    rw [List.map_map]
    rw [show ((fun x => |x|) ∘ fun x => x / c) = fun x => |x| / c from by
      funext x
      show |x / c| = |x| / c
      rw [abs_div, abs_of_pos hc]]
    exact sum_map_div xs (fun y => |y|) c

/-- Claim C6 (amended): multiplying every eligible volatility by the
same constant c > 0 leaves the weight vector unchanged, PROVIDED both
the original and the scaled volatilities are at least the clip floor
1e-6 (so that `np.clip(vols, 1e-6, None)` is the identity on both
sides).  Without that proviso the claim is false — see the
counterexample. -/
theorem c6_scale_invariance_amended (pairs : List (ℝ × ℝ)) (thr c : ℝ) (hc : 0 < c)
    (hv : ∀ p ∈ pairs, (1e-6 : ℝ) ≤ p.2 ∧ (1e-6 : ℝ) ≤ c * p.2) :
    computeWeights (pairs.map (fun p => (p.1, c * p.2))) thr = computeWeights pairs thr := by
  have h1 : logretsOf (pairs.map (fun p => (p.1, c * p.2))) = logretsOf pairs := by
    unfold logretsOf
    rw [List.map_map]
    rfl
  have hmean : meanOf (pairs.map (fun p => (p.1, c * p.2))) = meanOf pairs := by
    unfold meanOf
    rw [h1]
  have hstd : stdOf (pairs.map (fun p => (p.1, c * p.2))) = stdOf pairs := by
    unfold stdOf
    rw [h1]
  have hz : zscoresOf (pairs.map (fun p => (p.1, c * p.2))) = zscoresOf pairs := by
    unfold zscoresOf
    rw [h1, hmean, hstd]
  have hclip : clipsOf (pairs.map (fun p => (p.1, c * p.2))) =
      (clipsOf pairs).map (fun v => c * v) := by
    unfold clipsOf
    rw [List.map_map, List.map_map]
    apply List.map_congr_left
    intro p hp
    rcases hv p hp with ⟨hv1, hv2⟩
    show clipFloor (c * p.2) = c * clipFloor p.2
    unfold clipFloor
    rw [max_eq_left hv2, max_eq_left hv1]
  have hraw : rawSignalsOf (pairs.map (fun p => (p.1, c * p.2))) =
      (rawSignalsOf pairs).map (Option.map (fun x => x / c)) := by
    unfold rawSignalsOf
    rw [hz, hclip, List.zip_map_right, List.map_map, List.map_map]
    apply List.map_congr_left
    intro q hq
    have hq2 : q.2 ≠ 0 := clipsOf_ne_zero q.2 (List.of_mem_zip hq).2
    show fdiv (fneg q.1) (some (c * q.2)) =
      Option.map (fun x => x / c) (fdiv (fneg q.1) (some q.2))
    cases hq1 : q.1 with
    | none => simp
    | some x =>
      rw [fneg_some, fdiv_some, fdiv_some, if_neg hq2,
        if_neg (mul_ne_zero (ne_of_gt hc) hq2)]
      rw [Option.map_some']
      congr 1
      rw [div_div, mul_comm]
  have ham : activeMeanOf (pairs.map (fun p => (p.1, c * p.2))) thr =
      Option.map (fun x => x / c) (activeMeanOf pairs thr) := by
    unfold activeMeanOf
    rw [hraw, hz, List.zip_map_left, List.filterMap_map]
    rw [show ((fun q : Option ℝ × Option ℝ => if isActive q.2 thr then some q.1 else none) ∘
          Prod.map (Option.map fun x => x / c) id) =
        fun q : Option ℝ × Option ℝ =>
          Option.map (Option.map fun x => x / c)
            (if isActive q.2 thr then some q.1 else none) from by
      funext q
      by_cases h : isActive q.2 thr
      · simp [h]
      · simp [h]]
    rw [← List.map_filterMap]
    exact fmean_map_div _ c
  have hsig1 : ((rawSignalsOf pairs).map (Option.map (fun x => x / c))).map
        (fun s => fsub s (Option.map (fun x => x / c) (activeMeanOf pairs thr))) =
      ((rawSignalsOf pairs).map (fun s => fsub s (activeMeanOf pairs thr))).map
        (Option.map (fun x => x / c)) := by
    rw [List.map_map, List.map_map]
    apply List.map_congr_left
    intro s _
    exact fsub_map_div s (activeMeanOf pairs thr) c
  have hsig : signalsOf (pairs.map (fun p => (p.1, c * p.2))) thr =
      (signalsOf pairs thr).map (Option.map (fun x => x / c)) := by
    unfold signalsOf
    rw [hraw, hz, ham, hsig1, List.zip_map_left, List.map_map]
    conv_rhs => rw [List.map_map]
    apply List.map_congr_left
    intro q _
    show (if isInactive q.2 thr then some 0 else Option.map (fun x => x / c) q.1) =
      Option.map (fun x => x / c) (if isInactive q.2 thr then some 0 else q.1)
    by_cases h : isInactive q.2 thr
    · rw [if_pos h, if_pos h, Option.map_some', zero_div]
    · rw [if_neg h, if_neg h]
  rcases hw : sumAbsO (signalsOf pairs thr) with _ | s
  · have hw' : sumAbsO (signalsOf (pairs.map (fun p => (p.1, c * p.2))) thr) = none := by
      rw [hsig, sumAbsO_map_div _ hc, hw]
      rfl
    rw [computeWeights_none hw', computeWeights_none hw, List.length_map]
  · have hw' : sumAbsO (signalsOf (pairs.map (fun p => (p.1, c * p.2))) thr) = some (s / c) := by
      rw [hsig, sumAbsO_map_div _ hc, hw]
      rfl
    by_cases hpos : 0 < s
    · have hpos' : 0 < s / c := div_pos hpos hc
      rw [computeWeights_some hw', if_pos hpos', computeWeights_some hw, if_pos hpos]
      rw [hsig, List.map_map]
      apply List.map_congr_left
      intro o _
      show (Option.map (fun x => x / c) o).getD 0 / (s / c) = o.getD 0 / s
      cases o with
      | none =>
        show (0:ℝ) / (s / c) = 0 / s
        rw [zero_div, zero_div]
      | some y =>
        show (y / c) / (s / c) = y / s
        rw [div_div_div_eq, mul_comm, mul_div_mul_left y s (ne_of_gt hc)]
    · have hpos' : ¬ 0 < s / c := by
        intro hcon
        have := mul_pos hcon hc
        rw [div_mul_cancel₀ s (ne_of_gt hc)] at this
        exact hpos this
      rw [computeWeights_some hw', if_neg hpos', computeWeights_some hw, if_neg hpos,
        List.length_map]

/-- Witness for the amended C6: scaling the volatility of a
single-symbol event by c = 2 (both vols above the clip floor) leaves
the weights unchanged. -/
theorem c6_scale_invariance_amended_witness :
    (0:ℝ) < 2 ∧
    computeWeights ([((Real.exp 1), (1:ℝ))].map (fun p => (p.1, 2 * p.2))) 1 =
      computeWeights [((Real.exp 1), (1:ℝ))] 1 := by
  refine ⟨by norm_num, ?_⟩
  refine c6_scale_invariance_amended [((Real.exp 1), (1:ℝ))] 1 2 (by norm_num) ?_
  intro p hp
  rw [List.mem_singleton] at hp
  subst hp
  constructor <;> norm_num

lemma c6ex_logA : logretsOf [((Real.exp 1), (1:ℝ)), (Real.exp 1, 1), (Real.exp 3, 1),
    (Real.exp 3, 1e-6)] = [some 1, some 1, some 3, some 3] := by
  norm_num [logretsOf, flog, Real.exp_pos, Real.log_exp]

lemma c6ex_logB : logretsOf [((Real.exp 1), (1/2:ℝ)), (Real.exp 1, 1/2), (Real.exp 3, 1/2),
    (Real.exp 3, 5e-7)] = [some 1, some 1, some 3, some 3] := by
  norm_num [logretsOf, flog, Real.exp_pos, Real.log_exp]

lemma c6ex_meanA : meanOf [((Real.exp 1), (1:ℝ)), (Real.exp 1, 1), (Real.exp 3, 1),
    (Real.exp 3, 1e-6)] = some 2 := by
  unfold meanOf
  rw [c6ex_logA]
  norm_num [fmean]
  simp

lemma c6ex_meanB : meanOf [((Real.exp 1), (1/2:ℝ)), (Real.exp 1, 1/2), (Real.exp 3, 1/2),
    (Real.exp 3, 5e-7)] = some 2 := by
  unfold meanOf
  rw [c6ex_logB]
  norm_num [fmean]
  simp

lemma c6ex_stdA : stdOf [((Real.exp 1), (1:ℝ)), (Real.exp 1, 1), (Real.exp 3, 1),
    (Real.exp 3, 1e-6)] = some 1 := by
  unfold stdOf
  rw [c6ex_logA]
  norm_num [fstd, Real.sqrt_one]
  simp

lemma c6ex_stdB : stdOf [((Real.exp 1), (1/2:ℝ)), (Real.exp 1, 1/2), (Real.exp 3, 1/2),
    (Real.exp 3, 5e-7)] = some 1 := by
  unfold stdOf
  rw [c6ex_logB]
  norm_num [fstd, Real.sqrt_one]
  simp

lemma c6ex_zA : zscoresOf [((Real.exp 1), (1:ℝ)), (Real.exp 1, 1), (Real.exp 3, 1),
    (Real.exp 3, 1e-6)] = [some (-1), some (-1), some 1, some 1] := by
  unfold zscoresOf
  rw [c6ex_logA, c6ex_meanA, c6ex_stdA]
  norm_num [fsub, fdiv]

lemma c6ex_zB : zscoresOf [((Real.exp 1), (1/2:ℝ)), (Real.exp 1, 1/2), (Real.exp 3, 1/2),
    (Real.exp 3, 5e-7)] = [some (-1), some (-1), some 1, some 1] := by
  unfold zscoresOf
  rw [c6ex_logB, c6ex_meanB, c6ex_stdB]
  norm_num [fsub, fdiv]

lemma c6ex_clipA : clipsOf [((Real.exp 1), (1:ℝ)), (Real.exp 1, 1), (Real.exp 3, 1),
    (Real.exp 3, 1e-6)] = [1, 1, 1, 1e-6] := by
  norm_num [clipsOf, clipFloor, max_def]

lemma c6ex_clipB : clipsOf [((Real.exp 1), (1/2:ℝ)), (Real.exp 1, 1/2), (Real.exp 3, 1/2),
    (Real.exp 3, 5e-7)] = [1/2, 1/2, 1/2, 1e-6] := by
  norm_num [clipsOf, clipFloor, max_def]

lemma c6ex_act : isActive (some (-1 : ℝ)) (1/2) ∧ isActive (some (1 : ℝ)) (1/2) ∧
    ¬ isInactive (some (-1 : ℝ)) (1/2) ∧ ¬ isInactive (some (1 : ℝ)) (1/2) := by
  refine ⟨(isActive_some _ _).mpr ?_, (isActive_some _ _).mpr ?_, ?_, ?_⟩
  · rw [abs_neg, abs_one]
    norm_num
  · rw [abs_one]
    norm_num
  · intro hcon
    have := (isInactive_some _ _).mp hcon
    rw [abs_neg, abs_one] at this
    norm_num at this
  · intro hcon
    have := (isInactive_some _ _).mp hcon
    rw [abs_one] at this
    norm_num at this

lemma c6ex_rawA : rawSignalsOf [((Real.exp 1), (1:ℝ)), (Real.exp 1, 1), (Real.exp 3, 1),
    (Real.exp 3, 1e-6)] = [some 1, some 1, some (-1), some (-1000000)] := by
  unfold rawSignalsOf
  rw [c6ex_zA, c6ex_clipA]
  norm_num [fneg, fdiv]

lemma c6ex_rawB : rawSignalsOf [((Real.exp 1), (1/2:ℝ)), (Real.exp 1, 1/2), (Real.exp 3, 1/2),
    (Real.exp 3, 5e-7)] = [some 2, some 2, some (-2), some (-1000000)] := by
  unfold rawSignalsOf
  rw [c6ex_zB, c6ex_clipB]
  norm_num [fneg, fdiv]

lemma c6ex_amA : activeMeanOf [((Real.exp 1), (1:ℝ)), (Real.exp 1, 1), (Real.exp 3, 1),
    (Real.exp 3, 1e-6)] (1/2) = some (-999999/4) := by
  unfold activeMeanOf
  rw [c6ex_rawA, c6ex_zA]
  simp only [List.zip_cons_cons, List.zip_nil_right, List.filterMap_cons, List.filterMap_nil,
    c6ex_act.1, c6ex_act.2.1, if_true, ite_true, if_pos]
  norm_num [fmean]
  simp

lemma c6ex_amB : activeMeanOf [((Real.exp 1), (1/2:ℝ)), (Real.exp 1, 1/2), (Real.exp 3, 1/2),
    (Real.exp 3, 5e-7)] (1/2) = some (-999998/4) := by
  unfold activeMeanOf
  rw [c6ex_rawB, c6ex_zB]
  simp only [List.zip_cons_cons, List.zip_nil_right, List.filterMap_cons, List.filterMap_nil,
    c6ex_act.1, c6ex_act.2.1, if_true, ite_true, if_pos]
  norm_num [fmean]
  simp

lemma c6ex_sigA : signalsOf [((Real.exp 1), (1:ℝ)), (Real.exp 1, 1), (Real.exp 3, 1),
    (Real.exp 3, 1e-6)] (1/2) =
    [some (1000003/4), some (1000003/4), some (999995/4), some (-3000001/4)] := by
  unfold signalsOf
  rw [c6ex_rawA, c6ex_zA, c6ex_amA]
  simp only [List.map_cons, List.map_nil, fsub_some, List.zip_cons_cons, List.zip_nil_right,
    if_neg c6ex_act.2.2.1, if_neg c6ex_act.2.2.2]
  norm_num

lemma c6ex_sigB : signalsOf [((Real.exp 1), (1/2:ℝ)), (Real.exp 1, 1/2), (Real.exp 3, 1/2),
    (Real.exp 3, 5e-7)] (1/2) =
    [some (1000006/4), some (1000006/4), some (999990/4), some (-3000002/4)] := by
  unfold signalsOf
  rw [c6ex_rawB, c6ex_zB, c6ex_amB]
  simp only [List.map_cons, List.map_nil, fsub_some, List.zip_cons_cons, List.zip_nil_right,
    if_neg c6ex_act.2.2.1, if_neg c6ex_act.2.2.2]
  norm_num

lemma c6ex_wsA : sumAbsO (signalsOf [((Real.exp 1), (1:ℝ)), (Real.exp 1, 1), (Real.exp 3, 1),
    (Real.exp 3, 1e-6)] (1/2)) = some (3000001/2) := by
  rw [c6ex_sigA]
  unfold sumAbsO
  simp only [optSeq_cons_some, optSeq_nil, Option.map_some', List.map_cons, List.map_nil]
  rw [abs_of_pos (show (0:ℝ) < 1000003/4 by norm_num),
    abs_of_pos (show (0:ℝ) < 999995/4 by norm_num),
    abs_of_neg (show (-3000001/4:ℝ) < 0 by norm_num)]
  norm_num

lemma c6ex_wsB : sumAbsO (signalsOf [((Real.exp 1), (1/2:ℝ)), (Real.exp 1, 1/2),
    (Real.exp 3, 1/2), (Real.exp 3, 5e-7)] (1/2)) = some 1500001 := by
  rw [c6ex_sigB]
  unfold sumAbsO
  simp only [optSeq_cons_some, optSeq_nil, Option.map_some', List.map_cons, List.map_nil]
  rw [abs_of_pos (show (0:ℝ) < 1000006/4 by norm_num),
    abs_of_pos (show (0:ℝ) < 999990/4 by norm_num),
    abs_of_neg (show (-3000002/4:ℝ) < 0 by norm_num)]
  norm_num

lemma c6ex_wA : computeWeights [((Real.exp 1), (1:ℝ)), (Real.exp 1, 1), (Real.exp 3, 1),
    (Real.exp 3, 1e-6)] (1/2) =
    [1000003/6000002, 1000003/6000002, 999995/6000002, -3000001/6000002] := by
  rw [computeWeights_some c6ex_wsA, if_pos (show (0:ℝ) < 3000001/2 by norm_num), c6ex_sigA]
  norm_num

lemma c6ex_wB : computeWeights [((Real.exp 1), (1/2:ℝ)), (Real.exp 1, 1/2), (Real.exp 3, 1/2),
    (Real.exp 3, 5e-7)] (1/2) =
    [1000006/6000004, 1000006/6000004, 999990/6000004, -3000002/6000004] := by
  rw [computeWeights_some c6ex_wsB, if_pos (show (0:ℝ) < 1500001 by norm_num), c6ex_sigB]
  norm_num

/-- Counterexample to claim C6 as stated: scaling all four eligible
volatilities by the positive constant c = 1/2 changes the weight
vector, because the fourth volatility 1e-6 sits at the clip floor —
its scaled value 5e-7 is clipped back up to 1e-6, so the inverse-vol
signals no longer scale uniformly and the normalized weights differ. -/
theorem c6_scale_not_invariant_counterexample :
    (0:ℝ) < 1/2 ∧
    computeWeights ([((Real.exp 1), (1:ℝ)), (Real.exp 1, 1), (Real.exp 3, 1),
        (Real.exp 3, 1e-6)].map (fun p => (p.1, (1/2) * p.2))) (1/2) ≠
      computeWeights [((Real.exp 1), (1:ℝ)), (Real.exp 1, 1), (Real.exp 3, 1),
        (Real.exp 3, 1e-6)] (1/2) := by
  refine ⟨by norm_num, ?_⟩
  have hmap : [((Real.exp 1), (1:ℝ)), (Real.exp 1, 1), (Real.exp 3, 1),
      (Real.exp 3, 1e-6)].map (fun p => (p.1, (1/2:ℝ) * p.2)) =
      [((Real.exp 1), (1/2:ℝ)), (Real.exp 1, 1/2), (Real.exp 3, 1/2), (Real.exp 3, 5e-7)] := by
    norm_num
  rw [hmap, c6ex_wB, c6ex_wA]
  intro h
  simp only [List.cons.injEq] at h
  have h1 := h.1
  norm_num at h1

/-- Witness for C10 at concrete values: an issued order targeting
exactly pv * w / close, independent of the held size. -/
theorem c10_order_targets_weight_size_witness :
    orderDecision 100 (1/2) 0 10 = some 5 ∧ (5:ℝ) = 100 * (1/2) / 10 := by
  have he : orderDecision 100 (1/2) 0 10 = some 5 := by
    have hcond : (100:ℝ) * 0.02 < |100 * (1/2) - 0 * 10| := by
      rw [show (100:ℝ) * (1/2) - 0 * 10 = 50 by norm_num]
      rw [abs_of_pos (show (0:ℝ) < 50 by norm_num)]
      norm_num
    unfold orderDecision
    rw [if_pos hcond]
    norm_num
  exact ⟨he, c10_order_targets_weight_size 100 (1/2) 0 10 5 (by norm_num) he⟩

end QuantAlpha
